import Mathlib

/-!
# HyruleNode replicated storage engine: a shallow embedding

This file embeds the core of the HyruleNode peer (`storage.rs`, `dht.rs`,
`api.rs`, `replication.rs`) in Lean and proves the testable properties of
its specification.

Conventions of the embedding:
* Rust strings and byte buffers are both `List Nat` (UTF-8 bytes).
* The filesystem is a pair of association structures: a list of existing
  directory paths and a list of (path, contents) files; paths are lists of
  path components relative to the storage base directory.
* The zlib codec from the `flate2` crate is external to the repository; it
  is modelled as an abstract `Codec` (compress, fallible decompress) and
  theorems that depend on its documented round-trip contract take that
  contract as an explicit hypothesis.
* Rust `Result` is `Except Err`; a Rust panic (out-of-bounds string
  slicing) is the distinguished `Err.panicked` value.  A panic aborts the
  surrounding request, so the model does not track partial filesystem
  writes performed before a panic.
* Network calls made by the replication coordinator are modelled by an
  environment (`ReplEnv`) of response functions.
-/

/-- Byte strings: Rust `String` / `&[u8]` as a list of byte values. -/
abbrev Bytes := List Nat

/-- A filesystem path, relative to the storage base directory, as a list
of path components. -/
abbrev FPath := List Bytes

/-- UTF-8 encoding of a single character (used to spell the fixed path
components and file contents appearing in the source). -/
def charUtf8 (c : Char) : List Nat :=
  let n := c.toNat
  if n < 128 then [n]
  else if n < 2048 then [192 + n / 64, 128 + n % 64]
  else if n < 65536 then [224 + n / 4096, 128 + (n / 64) % 64, 128 + n % 64]
  else [240 + n / 262144, 128 + (n / 4096) % 64, 128 + (n / 64) % 64, 128 + n % 64]

/-- UTF-8 bytes of a Lean string literal. -/
def strBytes (s : String) : Bytes :=
  s.data.flatMap charUtf8

/-- The model filesystem: the set of directories that exist and the files
(with contents) that exist, rooted at the storage base directory. -/
structure FS where
  dirs : List FPath
  files : List (FPath × Bytes)
deriving DecidableEq

/-- The empty filesystem (a fresh storage base directory). -/
def FS.empty : FS := ⟨[], []⟩

/-- All paths that exist in the filesystem (directories and files). -/
def FS.allPaths (fs : FS) : List FPath :=
  fs.dirs ++ fs.files.map Prod.fst

/-- `Path::exists`. -/
def pathExists (fs : FS) (p : FPath) : Prop :=
  p ∈ fs.allPaths

instance (fs : FS) (p : FPath) : Decidable (pathExists fs p) := by
  unfold pathExists; infer_instance

/-- The nonempty prefixes of a path (all the directories that
`fs::create_dir_all` has to create). -/
def prefixesOf (p : FPath) : List FPath :=
  (List.range p.length).map (fun i => p.take (i + 1))

/-- `fs::create_dir_all`: create the directory and every missing
ancestor. -/
def createDirAll (fs : FS) (p : FPath) : FS :=
  { fs with dirs := fs.dirs ++ (prefixesOf p).filter (fun q => q ∉ fs.dirs) }

/-- Look a file up by path. -/
def lookupFile : List (FPath × Bytes) → FPath → Option Bytes
  | [], _ => none
  | e :: rest, p => if e.1 = p then some e.2 else lookupFile rest p

/-- Remove every entry at the given path. -/
def eraseFile : List (FPath × Bytes) → FPath → List (FPath × Bytes)
  | [], _ => []
  | e :: rest, p => if e.1 = p then eraseFile rest p else e :: eraseFile rest p

/-- `fs::write`: create or overwrite the file at `p`. -/
def writeFile (fs : FS) (p : FPath) (c : Bytes) : FS :=
  { fs with files := (p, c) :: eraseFile fs.files p }

/-- `readFile fs p` is the contents of the file at `p`, if any. -/
def readFile (fs : FS) (p : FPath) : Option Bytes :=
  lookupFile fs.files p

/-- `child? p d = some n` exactly when `d = p ++ [n]`, i.e. `d` is an
immediate child of `p` named `n`. -/
def child? (p : FPath) (d : FPath) : Option Bytes :=
  match d.drop p.length with
  | [n] => if d.take p.length = p then some n else none
  | _ => none

/-- `fs::read_dir`: the names of the immediate children of a directory
(each name listed once, as on a real filesystem). -/
def childNames (fs : FS) (p : FPath) : List Bytes :=
  ((fs.allPaths).filterMap (child? p)).dedup

/-- Error kinds surfaced by the storage layer.  `panicked` stands for a
Rust panic (not an error value). -/
inductive Err where
  | notFound
  | ioErr
  | panicked
deriving DecidableEq

/-- The zlib stream codec used through `flate2`.  The library is external
to this repository, so it enters the model as an abstract compressor and
fallible decompressor. -/
structure Codec where
  comp : Bytes → Bytes
  decomp : Bytes → Option Bytes

/-- The documented contract of the zlib codec: decompression inverts
compression. -/
def Codec.Roundtrip (z : Codec) : Prop :=
  ∀ b : Bytes, z.decomp (z.comp b) = some b

/-- Is `b` a UTF-8 continuation byte?  Slicing a Rust `&str` at a byte
index sitting on a continuation byte panics. -/
def isUtf8Cont (b : Nat) : Bool :=
  decide (128 ≤ b) && decide (b < 192)

/-- Is byte index 2 a character boundary of the id? -/
def boundaryOk (oid : Bytes) : Bool :=
  match oid.drop 2 with
  | [] => true
  | b :: _ => !isUtf8Cont b

/-- The split `(&object_id[..2], &object_id[2..])` performed by
`store_object`/`read_object`; `none` models the panic raised when the id
is shorter than 2 bytes or byte 2 is not a character boundary. -/
def splitId (oid : Bytes) : Option (Bytes × Bytes) :=
  if 2 ≤ oid.length ∧ boundaryOk oid then some (oid.take 2, oid.drop 2) else none

namespace GitStorage

/-- `GitStorage::repo_path`. -/
def repo_path (repoHash : Bytes) : FPath := [repoHash]

/-- `GitStorage::objects_path`. -/
def objects_path (repoHash : Bytes) : FPath := [repoHash, strBytes "objects"]

/-- `GitStorage::refs_path`. -/
def refs_path (repoHash : Bytes) : FPath := [repoHash, strBytes "refs"]

/-- `GitStorage::init_repo`: create the repository layout and write the
default HEAD pointer. -/
def init_repo (fs : FS) (repoHash : Bytes) : FS :=
  let fs := createDirAll fs (repo_path repoHash)
  let fs := createDirAll fs (objects_path repoHash)
  let fs := createDirAll fs (refs_path repoHash ++ [strBytes "heads"])
  let fs := createDirAll fs (refs_path repoHash ++ [strBytes "tags"])
  writeFile fs (repo_path repoHash ++ [strBytes "HEAD"]) (strBytes "ref: refs/heads/main\n")

/-- `GitStorage::store_object`: auto-initialize the repository if its
object area is missing, split the id into fan-out directory and filename,
compress the payload and write it.  The id is split after the
auto-initialization check, exactly as in the source. -/
def store_object (z : Codec) (fs : FS) (repoHash oid data : Bytes) : Except Err FS :=
  let objectsDir := objects_path repoHash
  let fs := if pathExists fs objectsDir then fs else init_repo fs repoHash
  match splitId oid with
  | none => .error .panicked
  | some (subdir, filename) =>
    let subdirPath := objectsDir ++ [subdir]
    let fs := createDirAll fs subdirPath
    .ok (writeFile fs (subdirPath ++ [filename]) (z.comp data))

/-- `GitStorage::read_object`: split the id (panicking on a malformed
id), fail with `notFound` when the derived path does not exist, otherwise
read and decompress. -/
def read_object (z : Codec) (fs : FS) (repoHash oid : Bytes) : Except Err Bytes :=
  match splitId oid with
  | none => .error .panicked
  | some (subdir, filename) =>
    let p := objects_path repoHash ++ [subdir, filename]
    if pathExists fs p then
      match readFile fs p with
      | none => .error .ioErr
      | some c =>
        match z.decomp c with
        | none => .error .ioErr
        | some data => .ok data
    else .error .notFound

/-- `GitStorage::verify_object`: readable and non-empty. -/
def verify_object (z : Codec) (fs : FS) (repoHash oid : Bytes) : Except Err Bool :=
  match read_object z fs repoHash oid with
  | .error e => .error e
  | .ok data => .ok (!data.isEmpty)

/-- ASCII whitespace bytes (`str::trim`; multi-byte Unicode whitespace is
outside the ASCII fragment modelled here). -/
def isWsByte (b : Nat) : Bool :=
  decide (9 ≤ b) && decide (b ≤ 13) || decide (b = 32)

/-- `str::trim` on the ASCII fragment. -/
def trimWs (l : Bytes) : Bytes :=
  ((l.dropWhile isWsByte).reverse.dropWhile isWsByte).reverse

/-- Split a ref name on `/` into path components, as `Path::join` does
with a multi-component relative path (empty components collapse). -/
def splitSlash (s : Bytes) : List Bytes :=
  (s.splitOn 47).filter (fun c => c ≠ [])

/-- The on-disk path of a ref. -/
def refPath (repoHash refName : Bytes) : FPath :=
  repo_path repoHash ++ splitSlash refName

/-- `GitStorage::update_ref`: create the parent directory and write
`commit_id` followed by a newline. -/
def update_ref (fs : FS) (repoHash refName commitId : Bytes) : FS :=
  let p := refPath repoHash refName
  let fs := createDirAll fs p.dropLast
  writeFile fs p (commitId ++ [10])

/-- `GitStorage::read_ref`: `notFound` when the ref file is absent,
otherwise the trimmed contents. -/
def read_ref (fs : FS) (repoHash refName : Bytes) : Except Err Bytes :=
  let p := refPath repoHash refName
  if pathExists fs p then
    match readFile fs p with
    | none => .error .ioErr
    | some c => .ok (trimWs c)
  else .error .notFound

/-- `GitStorage::list_objects`: empty for a missing object area,
otherwise walk the two-level fan-out and re-concatenate prefix and
filename. -/
def list_objects (fs : FS) (repoHash : Bytes) : List Bytes :=
  let objectsDir := objects_path repoHash
  if pathExists fs objectsDir then
    (childNames fs objectsDir).flatMap (fun sub =>
      if (objectsDir ++ [sub]) ∈ fs.dirs then
        (childNames fs (objectsDir ++ [sub])).map (fun n => sub ++ n)
      else [])
  else []

/-- `GitStorage::list_hosted_repos`: the top-level directories. -/
def list_hosted_repos (fs : FS) : List Bytes :=
  fs.dirs.filterMap (fun d => match d with | [n] => some n | _ => none)

/-- `GitStorage::get_repo_size`: total size of the files under the
repository directory (0 when it does not exist). -/
def get_repo_size (fs : FS) (repoHash : Bytes) : Nat :=
  if pathExists fs (repo_path repoHash) then
    ((fs.files.filter (fun e => e.1.head? = some repoHash)).map
      (fun e => e.2.length)).sum
  else 0

/-- `GitStorage::get_storage_usage`: summed over hosted repositories. -/
def get_storage_usage (fs : FS) : Nat :=
  ((list_hosted_repos fs).map (get_repo_size fs)).sum

end GitStorage

/-! ## Routing table (`dht.rs`) -/

/-- `DHT`: the in-memory routing table, a map from repo hash to the list
of node ids believed to host it (a `HashMap<String, Vec<String>>`,
embedded as an association list). -/
structure DHT where
  node_id : Bytes
  routing_table : List (Bytes × List Bytes)
deriving DecidableEq

/-- `DHT::new`. -/
def DHT.new (nodeId : Bytes) : DHT := ⟨nodeId, []⟩

/-- `HashMap::entry(k).or_insert_with(Vec::new).push(v)`. -/
def tableInsert : List (Bytes × List Bytes) → Bytes → Bytes → List (Bytes × List Bytes)
  | [], repoHash, nodeId => [(repoHash, [nodeId])]
  | e :: rest, repoHash, nodeId =>
    if e.1 = repoHash then (e.1, e.2 ++ [nodeId]) :: rest
    else e :: tableInsert rest repoHash nodeId

/-- `HashMap::get`. -/
def tableLookup : List (Bytes × List Bytes) → Bytes → Option (List Bytes)
  | [], _ => none
  | e :: rest, repoHash => if e.1 = repoHash then some e.2 else tableLookup rest repoHash

/-- `DHT::announce_content`: push `node_id` onto the entry for
`repo_hash`, creating the entry if missing. -/
def DHT.announce_content (d : DHT) (repoHash nodeId : Bytes) : DHT :=
  { d with routing_table := tableInsert d.routing_table repoHash nodeId }

/-- `DHT::query_content`: the current list for `repo_hash` (cloned),
empty if unknown. -/
def DHT.query_content (d : DHT) (repoHash : Bytes) : List Bytes :=
  (tableLookup d.routing_table repoHash).getD []

/-- `DHT::unannounce_content`: retain the other node ids. -/
def DHT.unannounce_content (d : DHT) (repoHash nodeId : Bytes) : DHT :=
  let table := d.routing_table.map
    (fun e => if e.1 = repoHash then (e.1, e.2.filter (fun n => n ≠ nodeId)) else e)
  { d with routing_table := table }

/-! ## Base64 decoding (`base64::engine::general_purpose::STANDARD`)

The `base64` crate is external; its STANDARD engine (canonical padding
required, non-zero trailing bits rejected) is embedded as an executable
decoder because the API handlers branch on its success. -/

/-- The value of one symbol of the standard base64 alphabet. -/
def b64Val (b : Nat) : Option Nat :=
  if 65 ≤ b ∧ b ≤ 90 then some (b - 65)
  else if 97 ≤ b ∧ b ≤ 122 then some (b - 97 + 26)
  else if 48 ≤ b ∧ b ≤ 57 then some (b - 48 + 52)
  else if b = 43 then some 62
  else if b = 47 then some 63
  else none

/-- Decode base64 text four symbols at a time; `=` padding is allowed
only in the final quartet and non-canonical trailing bits are
rejected. -/
def base64DecodeGo : Bytes → Option Bytes
  | [] => some []
  | s1 :: s2 :: s3 :: s4 :: rest =>
    match b64Val s1, b64Val s2 with
    | some v1, some v2 =>
      if s3 = 61 then
        if s4 = 61 ∧ rest = [] ∧ v2 % 16 = 0 then some [v1 * 4 + v2 / 16] else none
      else
        match b64Val s3 with
        | some v3 =>
          if s4 = 61 then
            if rest = [] ∧ v3 % 4 = 0 then
              some [v1 * 4 + v2 / 16, (v2 % 16) * 16 + v3 / 4]
            else none
          else
            match b64Val s4 with
            | some v4 =>
              (base64DecodeGo rest).map
                (fun tail => (v1 * 4 + v2 / 16) :: ((v2 % 16) * 16 + v3 / 4) ::
                  ((v3 % 4) * 64 + v4) :: tail)
            | none => none
        | none => none
    | _, _ => none
  | _ => none

/-- `general_purpose::STANDARD.decode`. -/
def base64Decode (s : Bytes) : Option Bytes := base64DecodeGo s

/-! ## API handlers (`api.rs`) -/

/-- The body of a single store request (`StoreObjectRequest`): the object
id and the base64 text of the payload. -/
structure StoreObjectRequest where
  object_id : Bytes
  data : Bytes
deriving DecidableEq

/-- A handler response: a value, an HTTP error status, or a panic that
aborts the request. -/
inductive HResp (α : Type) where
  | ok (a : α)
  | err (status : Nat)
  | panicked
deriving DecidableEq

/-- `StoreObjectResponse`. -/
structure StoreObjectResponse where
  success : Bool
  object_id : Bytes
deriving DecidableEq

/-- The pattern `if !repos.contains(&h) { repos.push(h) }` used by every
writer of the hosted-repository list. -/
def pushIfAbsent (l : List Bytes) (x : Bytes) : List Bytes :=
  if x ∈ l then l else l ++ [x]

namespace Api

/-- The state visible to an API handler after it ran: the filesystem, the
hosted-repository list and the response. -/
structure HandlerResult (α : Type) where
  fs : FS
  hosted : List Bytes
  resp : HResp α

/-- `api::store_object`: base64-decode (400 on failure), store (panic
propagates, other storage failure is 500), then add the repository to the
hosted list if absent. -/
def store_object (z : Codec) (fs : FS) (hosted : List Bytes) (repoHash : Bytes)
    (payload : StoreObjectRequest) : HandlerResult StoreObjectResponse :=
  match base64Decode payload.data with
  | none => ⟨fs, hosted, .err 400⟩
  | some data =>
    match GitStorage.store_object z fs repoHash payload.object_id data with
    | .error .panicked => ⟨fs, hosted, .panicked⟩
    | .error _ => ⟨fs, hosted, .err 500⟩
    | .ok fs' => ⟨fs', pushIfAbsent hosted repoHash, .ok ⟨true, payload.object_id⟩⟩

/-- `BatchStoreResponse`. -/
structure BatchStoreResponse where
  uploaded : Nat
  failed : List Bytes
deriving DecidableEq

/-- The loop body of `batch_store_objects`: each item is decoded and
stored; a decode failure or a storage error pushes the id onto the
failure list and the loop continues; a panic aborts the whole handler. -/
def batchStoreGo (z : Codec) (repoHash : Bytes) :
    List StoreObjectRequest → FS → Nat → List Bytes → Option (FS × Nat × List Bytes)
  | [], fs, uploaded, failed => some (fs, uploaded, failed)
  | obj :: rest, fs, uploaded, failed =>
    match base64Decode obj.data with
    | some data =>
      match GitStorage.store_object z fs repoHash obj.object_id data with
      | .ok fs' => batchStoreGo z repoHash rest fs' (uploaded + 1) failed
      | .error .panicked => none
      | .error _ => batchStoreGo z repoHash rest fs uploaded (failed ++ [obj.object_id])
    | none => batchStoreGo z repoHash rest fs uploaded (failed ++ [obj.object_id])

/-- `api::batch_store_objects`: process every item in order, then add the
repository to the hosted list if absent, and report the counts. -/
def batch_store_objects (z : Codec) (fs : FS) (hosted : List Bytes) (repoHash : Bytes)
    (objects : List StoreObjectRequest) : HandlerResult BatchStoreResponse :=
  match batchStoreGo z repoHash objects fs 0 [] with
  | none => ⟨fs, hosted, .panicked⟩
  | some (fs', uploaded, failed) =>
    ⟨fs', pushIfAbsent hosted repoHash, .ok ⟨uploaded, failed⟩⟩

/-- `api::init_repo`: initialize storage, then add the repository to the
hosted list if absent (201). -/
def init_repo (fs : FS) (hosted : List Bytes) (repoHash : Bytes) : HandlerResult Unit :=
  ⟨GitStorage.init_repo fs repoHash, pushIfAbsent hosted repoHash, .ok ()⟩

end Api

/-! ## Replication coordinator (`replication.rs`) -/

/-- `registration::PeerNode`. -/
structure PeerNode where
  node_id : Bytes
  address : Bytes
  port : Int
  is_anchor : Int
  last_seen : Bytes
deriving DecidableEq

/-- Outcome of the HTTP GET for one object's raw bytes: the request
itself can fail, the response can carry a non-success status, reading the
body can fail, or the bytes arrive. -/
inductive ObjFetchRes where
  | httpErr
  | badStatus
  | bodyErr
  | ok (data : Bytes)
deriving DecidableEq

namespace Replication

/-- The network environment one sweep runs against: the registry's
answers and each peer's answers.  `none` stands for a failed call
(transport error, non-success status or undecodable body). -/
structure ReplEnv where
  unhealthy : Option (List Bytes)
  sizeOf : Bytes → Option Nat
  nodesOf : Bytes → Option (List PeerNode)
  objList : PeerNode → Bytes → Option (List Bytes)
  objFetch : PeerNode → Bytes → Bytes → ObjFetchRes

/-- Result of one peer attempt: the filesystem after it and whether the
attempt succeeded.  Failed attempts do not roll their writes back. -/
structure FetchResult where
  fs : FS
  ok : Bool
deriving DecidableEq

/-- The object loop of `fetch_repo_from_peer`: a failed request or a
non-success status for one object is logged and skipped; a body-read
failure or a storage error aborts the peer attempt (`?` operator). -/
def fetchObjects (env : ReplEnv) (z : Codec) (peer : PeerNode) (repoHash : Bytes) :
    List Bytes → FS → FetchResult
  | [], fs => ⟨fs, true⟩
  | oid :: rest, fs =>
    match env.objFetch peer repoHash oid with
    | .httpErr => fetchObjects env z peer repoHash rest fs
    | .badStatus => fetchObjects env z peer repoHash rest fs
    | .bodyErr => ⟨fs, false⟩
    | .ok data =>
      match GitStorage.store_object z fs repoHash oid data with
      | .ok fs' => fetchObjects env z peer repoHash rest fs'
      | .error _ => ⟨fs, false⟩

/-- `replication::fetch_repo_from_peer`: initialize the repository
locally, fetch the peer's object listing (failure aborts the attempt),
then fetch each object. -/
def fetch_repo_from_peer (env : ReplEnv) (z : Codec) (fs : FS) (repoHash : Bytes)
    (peer : PeerNode) : FetchResult :=
  let fs := GitStorage.init_repo fs repoHash
  match env.objList peer repoHash with
  | none => ⟨fs, false⟩
  | some objs => fetchObjects env z peer repoHash objs fs

/-- Result of `replicate_repo`: filesystem, hosted list, success flag,
and (ghost) the peers that were attempted, in order. -/
structure ReplicateResult where
  fs : FS
  hosted : List Bytes
  ok : Bool
  attempted : List PeerNode
deriving DecidableEq

/-- The peer loop of `replicate_repo`: try each peer in order; the first
success adds the repository to the hosted list (if absent) and returns;
peers after it are not contacted. -/
def tryPeers (env : ReplEnv) (z : Codec) (repoHash : Bytes) :
    List PeerNode → FS → List Bytes → ReplicateResult
  | [], fs, hosted => ⟨fs, hosted, false, []⟩
  | peer :: rest, fs, hosted =>
    match fetch_repo_from_peer env z fs repoHash peer with
    | ⟨fs', true⟩ => ⟨fs', pushIfAbsent hosted repoHash, true, [peer]⟩
    | ⟨fs', false⟩ =>
      let r := tryPeers env z repoHash rest fs' hosted
      ⟨r.fs, r.hosted, r.ok, peer :: r.attempted⟩

/-- `replication::replicate_repo`: ask the registry for the hosting
peers; fail if the call fails or no peers are returned, otherwise run the
peer failover loop. -/
def replicate_repo (env : ReplEnv) (z : Codec) (fs : FS) (hosted : List Bytes)
    (repoHash : Bytes) : ReplicateResult :=
  match env.nodesOf repoHash with
  | none => ⟨fs, hosted, false, []⟩
  | some [] => ⟨fs, hosted, false, []⟩
  | some peers => tryPeers env z repoHash peers fs hosted

/-- The node state a sweep reads and writes: the filesystem, the
hosted-repository list and the replication-success counter. -/
structure SweepState where
  fs : FS
  hosted : List Bytes
  replication_count : Nat
deriving DecidableEq

/-- One sweep's accumulator: the state plus (ghost) the repositories
`replicate_repo` was invoked for. -/
structure SweepAcc where
  st : SweepState
  invoked : List Bytes
deriving DecidableEq

/-- The loop body of `check_and_replicate` for one candidate repository:
skip if in the hosted snapshot, skip if the size query fails, skip if the
reported size exceeds the capacity snapshot, otherwise invoke
`replicate_repo` and on success bump the replication counter. -/
def sweepStep (env : ReplEnv) (z : Codec) (snapshot : List Bytes) (avail : Nat)
    (acc : SweepAcc) (repoHash : Bytes) : SweepAcc :=
  if repoHash ∈ snapshot then acc
  else
    match env.sizeOf repoHash with
    | none => acc
    | some size =>
      if avail < size then acc
      else
        let r := replicate_repo env z acc.st.fs acc.st.hosted repoHash
        let count := if r.ok then acc.st.replication_count + 1 else acc.st.replication_count
        ⟨⟨r.fs, r.hosted, count⟩, acc.invoked ++ [repoHash]⟩

/-- `replication::check_and_replicate` (one sweep): a failed or empty
registry answer ends the sweep with no effect; otherwise available
capacity is computed once (`capacity.saturating_sub(usage)`), the hosted
list is snapshotted once, and the candidates are processed in order. -/
def check_and_replicate (env : ReplEnv) (z : Codec) (capacity : Nat)
    (st : SweepState) : SweepAcc :=
  match env.unhealthy with
  | none => ⟨st, []⟩
  | some repos =>
    if repos.isEmpty then ⟨st, []⟩
    else
      let avail := capacity - GitStorage.get_storage_usage st.fs
      let snapshot := st.hosted
      repos.foldl (sweepStep env z snapshot avail) ⟨st, []⟩

end Replication

/-! ## Filesystem lemmas -/

theorem readFile_writeFile_self (fs : FS) (p : FPath) (c : Bytes) :
    readFile (writeFile fs p c) p = some c := by
  simp [readFile, writeFile, lookupFile]

theorem lookupFile_eraseFile (l : List (FPath × Bytes)) (p q : FPath) (h : q ≠ p) :
    lookupFile (eraseFile l p) q = lookupFile l q := by
  induction l with
  | nil => rfl
  | cons e rest ih =>
    simp only [eraseFile, lookupFile]
    by_cases he : e.1 = p
    · rw [if_pos he, ih, if_neg (fun hq : e.1 = q => h (hq.symm.trans he))]
    · rw [if_neg he]
      simp only [lookupFile]
      by_cases hq : e.1 = q
      · rw [if_pos hq, if_pos hq]
      · rw [if_neg hq, if_neg hq, ih]

theorem readFile_writeFile_other (fs : FS) (p q : FPath) (c : Bytes) (h : q ≠ p) :
    readFile (writeFile fs p c) q = readFile fs q := by
  simp only [readFile, writeFile, lookupFile]
  rw [if_neg (fun hq : (p, c).1 = q => h (hq.symm))]
  exact lookupFile_eraseFile fs.files p q h

theorem readFile_createDirAll (fs : FS) (p q : FPath) :
    readFile (createDirAll fs p) q = readFile fs q := rfl

theorem mem_map_fst_eraseFile {l : List (FPath × Bytes)} {p q : FPath} :
    q ∈ (eraseFile l p).map Prod.fst ↔ q ≠ p ∧ q ∈ l.map Prod.fst := by
  induction l with
  | nil => simp [eraseFile]
  | cons e rest ih =>
    simp only [eraseFile]
    by_cases he : e.1 = p
    · rw [if_pos he, ih]
      simp only [List.map_cons, List.mem_cons]
      constructor
      · rintro ⟨h1, h2⟩
        exact ⟨h1, Or.inr h2⟩
      · rintro ⟨h1, h2 | h2⟩
        · exact absurd (h2.trans he) h1
        · exact ⟨h1, h2⟩
    · rw [if_neg he]
      simp only [List.map_cons, List.mem_cons, ih]
      constructor
      · rintro (h1 | ⟨h1, h2⟩)
        · exact ⟨fun hq => he (h1.symm.trans hq), Or.inl h1⟩
        · exact ⟨h1, Or.inr h2⟩
      · rintro ⟨h1, h2 | h2⟩
        · exact Or.inl h2
        · exact Or.inr ⟨h1, h2⟩

theorem pathExists_writeFile (fs : FS) (p q : FPath) (c : Bytes) :
    pathExists (writeFile fs p c) q ↔ q = p ∨ pathExists fs q := by
  simp only [pathExists, FS.allPaths, writeFile, List.map_cons, List.mem_append,
    List.mem_cons, mem_map_fst_eraseFile]
  by_cases hq : q = p
  · simp [hq]
  · simp [hq]

theorem pathExists_createDirAll (fs : FS) (p q : FPath) :
    pathExists (createDirAll fs p) q ↔ q ∈ prefixesOf p ∨ pathExists fs q := by
  simp only [pathExists, FS.allPaths, createDirAll, List.mem_append, List.mem_filter,
    decide_eq_true_eq]
  by_cases hq : q ∈ prefixesOf p
  · by_cases hd : q ∈ fs.dirs
    · simp [hq, hd]
    · simp [hq, hd]
  · simp [hq]

theorem mem_dirs_createDirAll (fs : FS) (p q : FPath) :
    q ∈ (createDirAll fs p).dirs ↔ q ∈ fs.dirs ∨ q ∈ prefixesOf p := by
  simp only [createDirAll, List.mem_append, List.mem_filter, decide_eq_true_eq]
  by_cases hq : q ∈ prefixesOf p
  · by_cases hd : q ∈ fs.dirs
    · simp [hq, hd]
    · simp [hq, hd]
  · simp [hq]

theorem dirs_writeFile (fs : FS) (p : FPath) (c : Bytes) :
    (writeFile fs p c).dirs = fs.dirs := rfl

theorem mem_prefixesOf {p q : FPath} :
    q ∈ prefixesOf p ↔ 1 ≤ q.length ∧ q.length ≤ p.length ∧ q = p.take q.length := by
  simp only [prefixesOf, List.mem_map, List.mem_range]
  constructor
  · rintro ⟨i, hi, rfl⟩
    have hlen : (p.take (i + 1)).length = i + 1 := by
      rw [List.length_take]; omega
    refine ⟨by omega, by omega, ?_⟩
    rw [hlen]
  · rintro ⟨h1, h2, hq⟩
    refine ⟨q.length - 1, by omega, ?_⟩
    have : q.length - 1 + 1 = q.length := by omega
    rw [this, ← hq]

theorem length_le_of_mem_prefixesOf {p q : FPath} (h : q ∈ prefixesOf p) :
    q.length ≤ p.length := (mem_prefixesOf.mp h).2.1

/-! ## Storage lemmas -/

theorem ne_of_length_ne {α : Type} {p q : List α} (h : p.length ≠ q.length) : p ≠ q :=
  fun he => h (he ▸ rfl)

theorem splitId_eq_some {oid sub fn : Bytes} (h : splitId oid = some (sub, fn)) :
    sub = oid.take 2 ∧ fn = oid.drop 2 ∧ 2 ≤ oid.length := by
  unfold splitId at h
  by_cases hc : 2 ≤ oid.length ∧ boundaryOk oid
  · rw [if_pos hc] at h
    injection h with h'
    exact ⟨(congrArg Prod.fst h').symm, (congrArg Prod.snd h').symm, hc.1⟩
  · rw [if_neg hc] at h
    exact Option.noConfusion h

theorem splitId_append {oid sub fn : Bytes} (h : splitId oid = some (sub, fn)) :
    sub ++ fn = oid := by
  obtain ⟨h1, h2, _⟩ := splitId_eq_some h
  rw [h1, h2]
  exact List.take_append_drop 2 oid

theorem splitId_sub_length {oid sub fn : Bytes} (h : splitId oid = some (sub, fn)) :
    sub.length = 2 := by
  obtain ⟨h1, _, h3⟩ := splitId_eq_some h
  rw [h1, List.length_take]
  omega

theorem length_objects_path (rh : Bytes) : (GitStorage.objects_path rh).length = 2 := rfl

theorem length_repo_path (rh : Bytes) : (GitStorage.repo_path rh).length = 1 := rfl

theorem length_head_path (rh : Bytes) :
    (GitStorage.repo_path rh ++ [strBytes "HEAD"]).length = 2 := rfl

theorem length_heads_path (rh : Bytes) :
    (GitStorage.refs_path rh ++ [strBytes "heads"]).length = 3 := rfl

theorem length_tags_path (rh : Bytes) :
    (GitStorage.refs_path rh ++ [strBytes "tags"]).length = 3 := rfl

/-- The on-disk path of an object, as derived by `store_object` and
`read_object` (a proof-layer abbreviation). -/
def objFilePath (rh sub fn : Bytes) : FPath :=
  GitStorage.objects_path rh ++ [sub, fn]

theorem length_objFilePath (rh sub fn : Bytes) : (objFilePath rh sub fn).length = 4 := rfl

theorem objFilePath_inj {rh sub fn rh' sub' fn' : Bytes}
    (h : objFilePath rh sub fn = objFilePath rh' sub' fn') :
    rh = rh' ∧ sub = sub' ∧ fn = fn' := by
  simp only [objFilePath, GitStorage.objects_path, List.cons_append, List.nil_append,
    List.cons.injEq, List.nil_eq] at h
  exact ⟨h.1, h.2.2.1, h.2.2.2.1⟩

theorem readFile_init_repo (fs : FS) (rh : Bytes) (q : FPath) (hq : q.length = 4) :
    readFile (GitStorage.init_repo fs rh) q = readFile fs q := by
  unfold GitStorage.init_repo
  rw [readFile_writeFile_other]
  · rfl
  · exact ne_of_length_ne (by rw [hq, length_head_path]; omega)

theorem pathExists_init_repo (fs : FS) (rh : Bytes) (q : FPath) (hq : q.length = 4) :
    pathExists (GitStorage.init_repo fs rh) q ↔ pathExists fs q := by
  unfold GitStorage.init_repo
  rw [pathExists_writeFile, pathExists_createDirAll, pathExists_createDirAll,
    pathExists_createDirAll, pathExists_createDirAll]
  have h4 : ∀ p : FPath, p.length ≤ 3 → q ∉ prefixesOf p := by
    intro p hp hmem
    have := length_le_of_mem_prefixesOf hmem
    omega
  have hhead : q ≠ GitStorage.repo_path rh ++ [strBytes "HEAD"] :=
    ne_of_length_ne (by rw [hq, length_head_path]; omega)
  simp only [hhead, false_or]
  rw [or_iff_right (h4 _ (by rw [length_tags_path])),
    or_iff_right (h4 _ (by rw [length_heads_path])),
    or_iff_right (h4 _ (by rw [length_objects_path]; omega)),
    or_iff_right (h4 _ (by rw [length_repo_path]; omega))]

theorem store_object_eq (z : Codec) (fs : FS) (rh oid data sub fn : Bytes)
    (h : splitId oid = some (sub, fn)) :
    GitStorage.store_object z fs rh oid data =
      .ok (writeFile
        (createDirAll
          (if pathExists fs (GitStorage.objects_path rh) then fs else GitStorage.init_repo fs rh)
          (GitStorage.objects_path rh ++ [sub]))
        (objFilePath rh sub fn) (z.comp data)) := by
  unfold GitStorage.store_object objFilePath
  rw [h]
  simp

theorem read_object_eq (z : Codec) (fs : FS) (rh oid sub fn : Bytes)
    (h : splitId oid = some (sub, fn)) :
    GitStorage.read_object z fs rh oid =
      (if pathExists fs (objFilePath rh sub fn) then
        match readFile fs (objFilePath rh sub fn) with
        | none => .error .ioErr
        | some c =>
          match z.decomp c with
          | none => .error .ioErr
          | some data => .ok data
      else .error .notFound) := by
  unfold GitStorage.read_object objFilePath
  rw [h]

theorem store_object_isOk (z : Codec) (fs : FS) (rh oid data : Bytes)
    (h : (splitId oid).isSome) :
    ∃ fs', GitStorage.store_object z fs rh oid data = .ok fs' := by
  obtain ⟨⟨sub, fn⟩, hsf⟩ := Option.isSome_iff_exists.mp h
  exact ⟨_, store_object_eq z fs rh oid data sub fn hsf⟩

/-- Reading back the object just stored returns the stored payload,
assuming the codec round-trip contract. -/
theorem read_object_store_object_self (z : Codec) (fs fs' : FS) (rh oid data : Bytes)
    (hz : z.Roundtrip) (hsf : splitId oid = some (sub, fn))
    (hst : GitStorage.store_object z fs rh oid data = .ok fs') :
    GitStorage.read_object z fs' rh oid = .ok data := by
  rw [store_object_eq z fs rh oid data sub fn hsf] at hst
  injection hst with hst
  subst hst
  rw [read_object_eq z _ rh oid sub fn hsf]
  rw [if_pos ((pathExists_writeFile _ _ _ _).mpr (Or.inl rfl))]
  rw [readFile_writeFile_self]
  simp [hz data]

theorem read_object_init_repo (z : Codec) (fs : FS) (rh' rh oid : Bytes)
    (hv : (splitId oid).isSome) :
    GitStorage.read_object z (GitStorage.init_repo fs rh') rh oid =
      GitStorage.read_object z fs rh oid := by
  obtain ⟨⟨sub, fn⟩, hsf⟩ := Option.isSome_iff_exists.mp hv
  rw [read_object_eq z _ rh oid sub fn hsf, read_object_eq z fs rh oid sub fn hsf]
  rw [readFile_init_repo fs rh' _ (length_objFilePath rh sub fn)]
  simp only [pathExists_init_repo fs rh' _ (length_objFilePath rh sub fn)]

/-- Storing one object leaves the read of every other (repository, id)
pair unchanged. -/
theorem read_object_store_object_other (z : Codec) (fs fs' : FS) (rh' oid' data rh oid : Bytes)
    (hst : GitStorage.store_object z fs rh' oid' data = .ok fs')
    (hv : (splitId oid).isSome)
    (hne : rh ≠ rh' ∨ oid ≠ oid') :
    GitStorage.read_object z fs' rh oid = GitStorage.read_object z fs rh oid := by
  obtain ⟨⟨sub, fn⟩, hsf⟩ := Option.isSome_iff_exists.mp hv
  have hv' : (splitId oid').isSome := by
    unfold GitStorage.store_object at hst
    by_cases h : (splitId oid').isSome
    · exact h
    · rw [Option.not_isSome_iff_eq_none.mp h] at hst
      exact Except.noConfusion hst
  obtain ⟨⟨sub', fn'⟩, hsf'⟩ := Option.isSome_iff_exists.mp hv'
  rw [store_object_eq z fs rh' oid' data sub' fn' hsf'] at hst
  injection hst with hst
  subst hst
  have hpne : objFilePath rh sub fn ≠ objFilePath rh' sub' fn' := by
    intro he
    obtain ⟨h1, h2, h3⟩ := objFilePath_inj he
    rcases hne with hne | hne
    · exact hne h1
    · exact hne (by rw [← splitId_append hsf, ← splitId_append hsf', h2, h3])
  rw [read_object_eq z _ rh oid sub fn hsf, read_object_eq z fs rh oid sub fn hsf]
  rw [readFile_writeFile_other _ _ _ _ hpne, readFile_createDirAll]
  simp only [pathExists_writeFile, pathExists_createDirAll]
  have hnp : objFilePath rh sub fn ∉ prefixesOf (GitStorage.objects_path rh' ++ [sub']) := by
    intro hmem
    have := length_le_of_mem_prefixesOf hmem
    rw [length_objFilePath] at this
    simp [GitStorage.objects_path] at this
  have hcond : ∀ c : Prop, (objFilePath rh sub fn = objFilePath rh' sub' fn' ∨
      objFilePath rh sub fn ∈ prefixesOf (GitStorage.objects_path rh' ++ [sub']) ∨ c) ↔ c := by
    intro c
    constructor
    · rintro (h1 | h1 | h1)
      · exact absurd h1 hpne
      · exact absurd h1 hnp
      · exact h1
    · exact fun h1 => Or.inr (Or.inr h1)
  by_cases hinit : pathExists fs (GitStorage.objects_path rh')
  · simp only [if_pos hinit, hcond]
  · simp only [if_neg hinit, readFile_init_repo fs rh' _ (length_objFilePath rh sub fn),
      pathExists_init_repo fs rh' _ (length_objFilePath rh sub fn), hcond]

/-! ## Ref lemmas -/

theorem trimWs_cons_of_ws {b : Nat} (l : Bytes) (hb : GitStorage.isWsByte b = true) :
    GitStorage.trimWs (b :: l) = GitStorage.trimWs l := by
  unfold GitStorage.trimWs
  rw [List.dropWhile_cons, if_pos hb]

theorem dropWhile_ws_ten (l : Bytes) :
    List.dropWhile GitStorage.isWsByte (10 :: l) = List.dropWhile GitStorage.isWsByte l := by
  rw [List.dropWhile_cons, if_pos (by decide)]

theorem trimWs_append_newline (c : Bytes) :
    GitStorage.trimWs (c ++ [10]) = GitStorage.trimWs c := by
  induction c with
  | nil => rfl
  | cons b l ih =>
    by_cases hb : GitStorage.isWsByte b = true
    · rw [List.cons_append, trimWs_cons_of_ws _ hb, trimWs_cons_of_ws _ hb, ih]
    · unfold GitStorage.trimWs
      rw [List.cons_append, List.dropWhile_cons, List.dropWhile_cons, if_neg hb, if_neg hb]
      rw [List.reverse_cons, List.reverse_cons, List.reverse_append]
      have : ([10] : Bytes).reverse ++ l.reverse ++ [b] = 10 :: (l.reverse ++ [b]) := by simp
      rw [this, dropWhile_ws_ten]

/-! ## The claims -/

/-- A concrete codec satisfying the round-trip contract, used to
instantiate witnesses. -/
def idCodec : Codec := ⟨fun b => b, fun b => some b⟩

theorem idCodec_roundtrip : idCodec.Roundtrip := fun _ => rfl

/-- C1: for every repo hash, object id of valid shape and byte sequence
`b`, `store_object` followed by `read_object` returns exactly `b`, under
the zlib codec's round-trip contract (compression then decompression is
the identity on the stored payload). -/
theorem store_then_read_returns_payload (z : Codec) (fs : FS) (rh oid b : Bytes)
    (hz : z.Roundtrip) (hid : (splitId oid).isSome) :
    ∃ fs', GitStorage.store_object z fs rh oid b = .ok fs' ∧
      GitStorage.read_object z fs' rh oid = .ok b := by
  obtain ⟨⟨sub, fn⟩, hsf⟩ := Option.isSome_iff_exists.mp hid
  obtain ⟨fs', hst⟩ := store_object_isOk z fs rh oid b hid
  exact ⟨fs', hst, read_object_store_object_self z fs fs' rh oid b hz hsf hst⟩

/-- Witness for C1 at a concrete id and payload. -/
theorem store_then_read_returns_payload_witness :
    ∃ fs', GitStorage.store_object idCodec FS.empty [97] [97, 98, 99] [104, 105] = .ok fs' ∧
      GitStorage.read_object idCodec fs' [97] [97, 98, 99] = .ok [104, 105] :=
  store_then_read_returns_payload idCodec FS.empty [97] [97, 98, 99] [104, 105]
    idCodec_roundtrip (by decide)

/-- C7: `read_ref` fails with `notFound` exactly when no entry exists at
the ref's path, and `update_ref` followed by `read_ref` returns exactly
the written commit id trimmed of surrounding whitespace. -/
theorem read_ref_not_found_and_update_read (fs : FS) (rh refName commitId : Bytes) :
    (GitStorage.read_ref fs rh refName = .error .notFound ↔
      ¬ pathExists fs (GitStorage.refPath rh refName))
    ∧ GitStorage.read_ref (GitStorage.update_ref fs rh refName commitId) rh refName =
        .ok (GitStorage.trimWs commitId) := by
  constructor
  · unfold GitStorage.read_ref
    by_cases hex : pathExists fs (GitStorage.refPath rh refName)
    · rw [if_pos hex]
      constructor
      · intro h
        exfalso
        cases hread : readFile fs (GitStorage.refPath rh refName) with
        | none => rw [hread] at h; exact Err.noConfusion (Except.error.inj h)
        | some c => rw [hread] at h; exact Except.noConfusion h
      · intro h; exact absurd hex h
    · rw [if_neg hex]
      exact ⟨fun _ => hex, fun _ => rfl⟩
  · unfold GitStorage.update_ref GitStorage.read_ref
    rw [if_pos ((pathExists_writeFile _ _ _ _).mpr (Or.inl rfl))]
    rw [readFile_writeFile_self]
    simp only [trimWs_append_newline]

theorem tableLookup_tableInsert (t : List (Bytes × List Bytes)) (rh nid : Bytes) :
    tableLookup (tableInsert t rh nid) rh = some ((tableLookup t rh).getD [] ++ [nid]) := by
  induction t with
  | nil => simp [tableInsert, tableLookup]
  | cons e rest ih =>
    simp only [tableInsert]
    by_cases he : e.1 = rh
    · rw [if_pos he]
      simp [tableLookup, he]
    · rw [if_neg he]
      simp only [tableLookup, if_neg he]
      exact ih

/-- C5 counterexample: announcing the same pair twice is observably
different from announcing it once — the node id ends up in the query
result twice. -/
theorem announce_not_idempotent_cx :
    DHT.announce_content (DHT.announce_content (DHT.new [110]) [114] [97]) [114] [97] ≠
        DHT.announce_content (DHT.new [110]) [114] [97]
    ∧ ((DHT.announce_content (DHT.announce_content (DHT.new [110]) [114] [97]) [114] [97]).query_content
        [114]).count [97] = 2 := by
  constructor
  · decide
  · decide

/-- C5 (amended): `announce_content` appends `node_id` to the entry for
`repo_hash` unconditionally, so each announce adds one more copy to the
`query_content` result; duplicate announces are not coalesced. -/
theorem announce_appends (d : DHT) (rh nid : Bytes) :
    (d.announce_content rh nid).query_content rh = d.query_content rh ++ [nid] := by
  unfold DHT.announce_content DHT.query_content
  rw [tableLookup_tableInsert]
  rfl

theorem splitId_eq_none_of_short {oid : Bytes} (h : oid.length < 2) : splitId oid = none := by
  unfold splitId
  rw [if_neg (fun hc => by omega)]

theorem mem_pushIfAbsent_self (l : List Bytes) (x : Bytes) : x ∈ pushIfAbsent l x := by
  unfold pushIfAbsent
  by_cases hx : x ∈ l
  · rw [if_pos hx]; exact hx
  · rw [if_neg hx]; exact List.mem_append_right l (List.mem_singleton_self x)

/-- C9: the storage operations split the object id with no length check,
so every id shorter than 2 bytes makes `store_object`, `read_object` and
`verify_object` panic rather than return an error value; such ids reach
the storage layer unvalidated from the API store handler, which then
panics too.  Ids of valid shape never hit the panic. -/
theorem short_object_id_panics (z : Codec) (fs : FS) (hosted : List Bytes)
    (rh oid data : Bytes) (hshort : oid.length < 2) :
    GitStorage.store_object z fs rh oid data = .error .panicked
    ∧ GitStorage.read_object z fs rh oid = .error .panicked
    ∧ GitStorage.verify_object z fs rh oid = .error .panicked
    ∧ (∀ payload : StoreObjectRequest, payload.object_id = oid →
        (base64Decode payload.data).isSome →
        (Api.store_object z fs hosted rh payload).resp = .panicked)
    ∧ (∀ oid' : Bytes, (splitId oid').isSome →
        GitStorage.store_object z fs rh oid' data ≠ .error .panicked
        ∧ GitStorage.read_object z fs rh oid' ≠ .error .panicked) := by
  have hnone := splitId_eq_none_of_short hshort
  have hstoreAll : ∀ dd : Bytes, GitStorage.store_object z fs rh oid dd = .error .panicked := by
    intro dd
    unfold GitStorage.store_object
    rw [hnone]
  have hstore : GitStorage.store_object z fs rh oid data = .error .panicked := hstoreAll data
  have hread : GitStorage.read_object z fs rh oid = .error .panicked := by
    unfold GitStorage.read_object
    rw [hnone]
  refine ⟨hstore, hread, ?_, ?_, ?_⟩
  · unfold GitStorage.verify_object
    rw [hread]
  · intro payload hid hdec
    obtain ⟨d, hd⟩ := Option.isSome_iff_exists.mp hdec
    simp only [Api.store_object, hd, hid, hstoreAll]
  · intro oid' hv'
    obtain ⟨⟨sub, fn⟩, hsf⟩ := Option.isSome_iff_exists.mp hv'
    constructor
    · obtain ⟨fs', hst⟩ := store_object_isOk z fs rh oid' data hv'
      rw [hst]
      exact fun h => Except.noConfusion h
    · rw [read_object_eq z fs rh oid' sub fn hsf]
      by_cases hex : pathExists fs (objFilePath rh sub fn)
      · rw [if_pos hex]
        cases hrf : readFile fs (objFilePath rh sub fn) with
        | none => simp
        | some c =>
          cases hdc : z.decomp c with
          | none => simp [hdc]
          | some d => simp [hdc]
      · rw [if_neg hex]
        exact fun h => Err.noConfusion (Except.error.inj h)

/-- Witness for C9 at the empty object id. -/
theorem short_object_id_panics_witness :
    ([] : Bytes).length < 2
    ∧ (GitStorage.store_object idCodec FS.empty [114] [] [1] = .error .panicked
      ∧ GitStorage.read_object idCodec FS.empty [114] [] = .error .panicked
      ∧ GitStorage.verify_object idCodec FS.empty [114] [] = .error .panicked
      ∧ (∀ payload : StoreObjectRequest, payload.object_id = [] →
          (base64Decode payload.data).isSome →
          (Api.store_object idCodec FS.empty [] [114] payload).resp = .panicked)
      ∧ (∀ oid' : Bytes, (splitId oid').isSome →
          GitStorage.store_object idCodec FS.empty [114] oid' [1] ≠ .error .panicked
          ∧ GitStorage.read_object idCodec FS.empty [114] oid' ≠ .error .panicked)) :=
  ⟨by decide, short_object_id_panics idCodec FS.empty [] [114] [] [1] (by decide)⟩

theorem pushIfAbsent_nodup {l : List Bytes} (x : Bytes) (h : l.Nodup) :
    (pushIfAbsent l x).Nodup := by
  unfold pushIfAbsent
  by_cases hx : x ∈ l
  · rw [if_pos hx]; exact h
  · rw [if_neg hx]
    simp [List.nodup_append, h, hx]

theorem tryPeers_hosted_cases (env : Replication.ReplEnv) (z : Codec) (rh : Bytes)
    (peers : List PeerNode) (fs : FS) (hosted : List Bytes) :
    (Replication.tryPeers env z rh peers fs hosted).hosted = hosted ∨
      (Replication.tryPeers env z rh peers fs hosted).hosted = pushIfAbsent hosted rh := by
  induction peers generalizing fs with
  | nil => exact Or.inl rfl
  | cons peer rest ih =>
    simp only [Replication.tryPeers]
    cases hfetch : Replication.fetch_repo_from_peer env z fs rh peer with
    | mk fs' ok =>
      cases ok with
      | true => exact Or.inr rfl
      | false => exact ih fs'

theorem replicate_repo_hosted_cases (env : Replication.ReplEnv) (z : Codec) (fs : FS)
    (hosted : List Bytes) (rh : Bytes) :
    (Replication.replicate_repo env z fs hosted rh).hosted = hosted ∨
      (Replication.replicate_repo env z fs hosted rh).hosted = pushIfAbsent hosted rh := by
  unfold Replication.replicate_repo
  cases env.nodesOf rh with
  | none => exact Or.inl rfl
  | some peers =>
    cases peers with
    | nil => exact Or.inl rfl
    | cons p rest => exact tryPeers_hosted_cases env z rh (p :: rest) fs hosted

theorem batch_store_hosted (z : Codec) (fs : FS) (hosted : List Bytes) (rh : Bytes)
    (objs : List StoreObjectRequest) :
    (Api.batch_store_objects z fs hosted rh objs).hosted = hosted ∨
      (Api.batch_store_objects z fs hosted rh objs).hosted = pushIfAbsent hosted rh := by
  unfold Api.batch_store_objects
  cases Api.batchStoreGo z rh objs fs 0 [] with
  | none => exact Or.inl rfl
  | some r => exact Or.inr rfl

theorem api_store_hosted (z : Codec) (fs : FS) (hosted : List Bytes) (rh : Bytes)
    (payload : StoreObjectRequest) :
    (Api.store_object z fs hosted rh payload).hosted = hosted ∨
      (Api.store_object z fs hosted rh payload).hosted = pushIfAbsent hosted rh := by
  unfold Api.store_object
  cases hdec : base64Decode payload.data with
  | none => simp [hdec]
  | some data =>
    cases hst : GitStorage.store_object z fs rh payload.object_id data with
    | ok fs' => simp [hdec, hst]
    | error e =>
      cases e <;> simp [hdec, hst]

/-- C10: every writer of the locally hosted repository list — the
single-object store handler, the batch-store handler, the
repository-init handler and a replication attempt — checks membership
before pushing, so a duplicate-free hosted list stays duplicate-free. -/
theorem hosted_list_nodup_preserved (z : Codec) (fs : FS) (hosted : List Bytes)
    (rh : Bytes) (payload : StoreObjectRequest) (objs : List StoreObjectRequest)
    (env : Replication.ReplEnv) (hnd : hosted.Nodup) :
    (Api.store_object z fs hosted rh payload).hosted.Nodup
    ∧ (Api.batch_store_objects z fs hosted rh objs).hosted.Nodup
    ∧ (Api.init_repo fs hosted rh).hosted.Nodup
    ∧ (Replication.replicate_repo env z fs hosted rh).hosted.Nodup := by
  refine ⟨?_, ?_, ?_, ?_⟩
  · rcases api_store_hosted z fs hosted rh payload with h | h <;> rw [h]
    · exact hnd
    · exact pushIfAbsent_nodup rh hnd
  · rcases batch_store_hosted z fs hosted rh objs with h | h <;> rw [h]
    · exact hnd
    · exact pushIfAbsent_nodup rh hnd
  · exact pushIfAbsent_nodup rh hnd
  · rcases replicate_repo_hosted_cases env z fs hosted rh with h | h <;> rw [h]
    · exact hnd
    · exact pushIfAbsent_nodup rh hnd

/-- A network environment in which every call fails (used to instantiate
witnesses). -/
def failEnv : Replication.ReplEnv :=
  ⟨none, fun _ => none, fun _ => none, fun _ _ => none, fun _ _ _ => .httpErr⟩

/-- Witness for C10 at concrete state. -/
theorem hosted_list_nodup_preserved_witness :
    ([[120]] : List Bytes).Nodup
    ∧ ((Api.store_object idCodec FS.empty [[120]] [114] ⟨[97, 98], [65, 65, 61, 61]⟩).hosted.Nodup
      ∧ (Api.batch_store_objects idCodec FS.empty [[120]] [114] []).hosted.Nodup
      ∧ (Api.init_repo FS.empty [[120]] [114]).hosted.Nodup
      ∧ (Replication.replicate_repo failEnv idCodec FS.empty [[120]] [114]).hosted.Nodup) :=
  ⟨by decide, hosted_list_nodup_preserved idCodec FS.empty [[120]] [114]
    ⟨[97, 98], [65, 65, 61, 61]⟩ [] failEnv (by decide)⟩

/-- C8: a batch of 3 objects where exactly the middle one has malformed
base64 payload is processed to the end: the response reports 2 uploaded
and a failure list holding only that object id, and the repository is
still added to the hosted list. -/
theorem batch_store_reports_partial_failure (z : Codec) (fs : FS) (hosted : List Bytes)
    (rh : Bytes) (o1 o2 o3 : StoreObjectRequest) (d1 d3 : Bytes)
    (h1 : base64Decode o1.data = some d1)
    (h2 : base64Decode o2.data = none)
    (h3 : base64Decode o3.data = some d3)
    (hv1 : (splitId o1.object_id).isSome)
    (hv3 : (splitId o3.object_id).isSome) :
    (Api.batch_store_objects z fs hosted rh [o1, o2, o3]).resp =
      .ok ⟨2, [o2.object_id]⟩
    ∧ rh ∈ (Api.batch_store_objects z fs hosted rh [o1, o2, o3]).hosted := by
  obtain ⟨fs1, hst1⟩ := store_object_isOk z fs rh o1.object_id d1 hv1
  obtain ⟨fs2, hst2⟩ := store_object_isOk z fs1 rh o3.object_id d3 hv3
  have hgo : Api.batchStoreGo z rh [o1, o2, o3] fs 0 [] =
      some (fs2, 2, [o2.object_id]) := by
    simp only [Api.batchStoreGo, h1, hst1, h2, h3, hst2]
    norm_num
  unfold Api.batch_store_objects
  rw [hgo]
  exact ⟨rfl, mem_pushIfAbsent_self hosted rh⟩

/-- Witness for C8: ids `"ab"`, `"cd"`, `"ef"`; payloads `"aGVsbG8="`
(decodes to `"hello"`), `"!"` (malformed), `"d29ybGQ="` (decodes to
`"world"`). -/
theorem batch_store_reports_partial_failure_witness :
    base64Decode [97, 71, 86, 115, 98, 71, 56, 61] = some [104, 101, 108, 108, 111]
    ∧ base64Decode [33] = none
    ∧ base64Decode [100, 50, 57, 121, 98, 71, 81, 61] = some [119, 111, 114, 108, 100]
    ∧ ((Api.batch_store_objects idCodec FS.empty [] [114]
          [⟨[97, 98], [97, 71, 86, 115, 98, 71, 56, 61]⟩, ⟨[99, 100], [33]⟩,
            ⟨[101, 102], [100, 50, 57, 121, 98, 71, 81, 61]⟩]).resp =
        .ok ⟨2, [[99, 100]]⟩
      ∧ [114] ∈ (Api.batch_store_objects idCodec FS.empty [] [114]
          [⟨[97, 98], [97, 71, 86, 115, 98, 71, 56, 61]⟩, ⟨[99, 100], [33]⟩,
            ⟨[101, 102], [100, 50, 57, 121, 98, 71, 81, 61]⟩]).hosted) :=
  ⟨by decide, by decide, by decide,
    batch_store_reports_partial_failure idCodec FS.empty [] [114]
      ⟨[97, 98], [97, 71, 86, 115, 98, 71, 56, 61]⟩ ⟨[99, 100], [33]⟩
      ⟨[101, 102], [100, 50, 57, 121, 98, 71, 81, 61]⟩
      [104, 101, 108, 108, 111] [119, 111, 114, 108, 100]
      (by decide) (by decide) (by decide) (by decide) (by decide)⟩

theorem sweepStep_invoked_cases (env : Replication.ReplEnv) (z : Codec)
    (sn : List Bytes) (av : Nat) (acc : Replication.SweepAcc) (x : Bytes) :
    (Replication.sweepStep env z sn av acc x).invoked = acc.invoked ∨
      (Replication.sweepStep env z sn av acc x).invoked = acc.invoked ++ [x] := by
  unfold Replication.sweepStep
  by_cases hmem : x ∈ sn
  · simp [hmem]
  · cases hsz : env.sizeOf x with
    | none => simp [hmem, hsz]
    | some size =>
      by_cases hlt : av < size
      · simp [hmem, hsz, hlt]
      · simp [hmem, hsz, hlt]

theorem sweepStep_skip_of_oversize (env : Replication.ReplEnv) (z : Codec)
    (sn : List Bytes) (av : Nat) (rh : Bytes) (S : Nat)
    (hS : env.sizeOf rh = some S) (hover : av < S) :
    ∀ acc, Replication.sweepStep env z sn av acc rh = acc := by
  intro acc
  unfold Replication.sweepStep
  by_cases hmem : rh ∈ sn
  · rw [if_pos hmem]
  · simp [hmem, hS, hover]

theorem foldl_sweepStep_invoked_not_mem (env : Replication.ReplEnv) (z : Codec)
    (sn : List Bytes) (av : Nat) (rh : Bytes)
    (hskip : ∀ acc, Replication.sweepStep env z sn av acc rh = acc) :
    ∀ (items : List Bytes) (acc : Replication.SweepAcc), rh ∉ acc.invoked →
      rh ∉ (items.foldl (Replication.sweepStep env z sn av) acc).invoked := by
  intro items
  induction items with
  | nil => exact fun acc h => h
  | cons x rest ih =>
    intro acc h
    simp only [List.foldl_cons]
    by_cases hx : x = rh
    · subst hx; rw [hskip acc]; exact ih acc h
    · apply ih
      rcases sweepStep_invoked_cases env z sn av acc x with hc | hc
      · rw [hc]; exact h
      · rw [hc]
        intro hmem
        rcases List.mem_append.mp hmem with hmem | hmem
        · exact h hmem
        · exact hx (List.mem_singleton.mp hmem).symm

/-- C2: with available capacity snapshotted once at the start of a sweep
as `capacity - current usage`, a candidate repository whose reported size
exceeds that snapshot is skipped: processing it changes nothing (no
storage write, no hosted-list or counter update), and `replicate_repo` is
never invoked for it during the sweep. -/
theorem oversize_candidate_never_replicated (env : Replication.ReplEnv) (z : Codec)
    (capacity : Nat) (st : Replication.SweepState) (rh : Bytes) (S : Nat)
    (hS : env.sizeOf rh = some S)
    (hover : capacity - GitStorage.get_storage_usage st.fs < S) :
    (∀ acc, Replication.sweepStep env z st.hosted
        (capacity - GitStorage.get_storage_usage st.fs) acc rh = acc)
    ∧ rh ∉ (Replication.check_and_replicate env z capacity st).invoked := by
  have hskip := sweepStep_skip_of_oversize env z st.hosted
    (capacity - GitStorage.get_storage_usage st.fs) rh S hS hover
  refine ⟨hskip, ?_⟩
  unfold Replication.check_and_replicate
  cases hu : env.unhealthy with
  | none => simp
  | some repos =>
    by_cases hemp : repos.isEmpty
    · simp [hemp]
    · simp only [hemp, if_neg (by simp [hemp] : ¬ repos.isEmpty = true)]
      exact foldl_sweepStep_invoked_not_mem env z st.hosted
        (capacity - GitStorage.get_storage_usage st.fs) rh hskip repos ⟨st, []⟩
        (by simp)

/-- Witness for C2: capacity 0, reported size 1000. -/
theorem oversize_candidate_never_replicated_witness :
    (⟨some [[114]], fun _ => some 1000, fun _ => none, fun _ _ => none,
        fun _ _ _ => .httpErr⟩ : Replication.ReplEnv).sizeOf [114] = some 1000
    ∧ 0 - GitStorage.get_storage_usage FS.empty < 1000
    ∧ ((∀ acc, Replication.sweepStep
          ⟨some [[114]], fun _ => some 1000, fun _ => none, fun _ _ => none,
            fun _ _ _ => .httpErr⟩ idCodec ([] : List Bytes)
          (0 - GitStorage.get_storage_usage FS.empty) acc [114] = acc)
      ∧ [114] ∉ (Replication.check_and_replicate
          ⟨some [[114]], fun _ => some 1000, fun _ => none, fun _ _ => none,
            fun _ _ _ => .httpErr⟩ idCodec 0 ⟨FS.empty, [], 0⟩).invoked) :=
  ⟨rfl, by decide,
    oversize_candidate_never_replicated
      ⟨some [[114]], fun _ => some 1000, fun _ => none, fun _ _ => none,
        fun _ _ _ => .httpErr⟩ idCodec 0 ⟨FS.empty, [], 0⟩ [114] 1000 rfl (by decide)⟩

/-- The per-object hypothesis for a peer fetch: each listed object is
either fetched successfully with payload `d oid` (and has a storable id),
or its request fails / carries a bad status (the skipped cases). -/
def FetchStep (env : Replication.ReplEnv) (peer : PeerNode) (rh : Bytes)
    (d : Bytes → Bytes) (oid : Bytes) : Prop :=
  (env.objFetch peer rh oid = .ok (d oid) ∧ (splitId oid).isSome)
    ∨ env.objFetch peer rh oid = .httpErr ∨ env.objFetch peer rh oid = .badStatus

theorem fetchObjects_ok (env : Replication.ReplEnv) (z : Codec) (peer : PeerNode)
    (rh : Bytes) (d : Bytes → Bytes) (objs : List Bytes)
    (h : ∀ oid ∈ objs, FetchStep env peer rh d oid) :
    ∀ fs, (Replication.fetchObjects env z peer rh objs fs).ok = true := by
  induction objs with
  | nil => intro fs; rfl
  | cons x rest ih =>
    intro fs
    have hrest : ∀ oid ∈ rest, FetchStep env peer rh d oid :=
      fun oid ho => h oid (List.mem_cons_of_mem x ho)
    rcases h x (List.mem_cons_self x rest) with ⟨hx, hvx⟩ | hx | hx
    · obtain ⟨fs', hst⟩ := store_object_isOk z fs rh x (d x) hvx
      simp only [Replication.fetchObjects, hx, hst]
      exact ih hrest fs'
    · simp only [Replication.fetchObjects, hx]
      exact ih hrest fs
    · simp only [Replication.fetchObjects, hx]
      exact ih hrest fs

theorem fetchObjects_preserves_read (env : Replication.ReplEnv) (z : Codec)
    (peer : PeerNode) (rh : Bytes) (d : Bytes → Bytes) (objs : List Bytes) (o : Bytes)
    (h : ∀ oid ∈ objs, FetchStep env peer rh d oid)
    (hno : ∀ oid ∈ objs, env.objFetch peer rh oid = .ok (d oid) → oid ≠ o)
    (hvo : (splitId o).isSome) :
    ∀ fs, GitStorage.read_object z (Replication.fetchObjects env z peer rh objs fs).fs rh o =
      GitStorage.read_object z fs rh o := by
  induction objs with
  | nil => intro fs; rfl
  | cons x rest ih =>
    intro fs
    have hrest : ∀ oid ∈ rest, FetchStep env peer rh d oid :=
      fun oid ho => h oid (List.mem_cons_of_mem x ho)
    have hnorest : ∀ oid ∈ rest, env.objFetch peer rh oid = .ok (d oid) → oid ≠ o :=
      fun oid ho => hno oid (List.mem_cons_of_mem x ho)
    rcases h x (List.mem_cons_self x rest) with ⟨hx, hvx⟩ | hx | hx
    · obtain ⟨fs', hst⟩ := store_object_isOk z fs rh x (d x) hvx
      simp only [Replication.fetchObjects, hx, hst]
      rw [ih hrest hnorest fs']
      exact read_object_store_object_other z fs fs' rh x (d x) rh o hst hvo
        (Or.inr (fun he => hno x (List.mem_cons_self x rest) hx he.symm))
    · simp only [Replication.fetchObjects, hx]
      exact ih hrest hnorest fs
    · simp only [Replication.fetchObjects, hx]
      exact ih hrest hnorest fs

theorem fetchObjects_reads (env : Replication.ReplEnv) (z : Codec) (peer : PeerNode)
    (rh : Bytes) (d : Bytes → Bytes) (objs : List Bytes) (hz : z.Roundtrip)
    (h : ∀ oid ∈ objs, FetchStep env peer rh d oid) :
    ∀ fs, ∀ o ∈ objs, env.objFetch peer rh o = .ok (d o) → (splitId o).isSome →
      GitStorage.read_object z (Replication.fetchObjects env z peer rh objs fs).fs rh o =
        .ok (d o) := by
  induction objs with
  | nil => intro fs o ho; exact absurd ho (List.not_mem_nil o)
  | cons x rest ih =>
    intro fs o ho hfo hvo
    have hrest : ∀ oid ∈ rest, FetchStep env peer rh d oid :=
      fun oid hm => h oid (List.mem_cons_of_mem x hm)
    rcases h x (List.mem_cons_self x rest) with ⟨hx, hvx⟩ | hx | hx
    · obtain ⟨fs', hst⟩ := store_object_isOk z fs rh x (d x) hvx
      simp only [Replication.fetchObjects, hx, hst]
      by_cases hor : o ∈ rest
      · exact ih hrest fs' o hor hfo hvo
      · have hox : o = x := by
          rcases List.mem_cons.mp ho with h' | h'
          · exact h'
          · exact absurd h' hor
        subst hox
        rw [fetchObjects_preserves_read env z peer rh d rest o hrest
          (fun oid hm hfetch heq => hor (heq ▸ hm)) hvo fs']
        obtain ⟨⟨sub, fn⟩, hsf⟩ := Option.isSome_iff_exists.mp hvo
        exact read_object_store_object_self z fs fs' rh o (d o) hz hsf hst
    · simp only [Replication.fetchObjects, hx]
      by_cases hor : o ∈ rest
      · exact ih hrest fs o hor hfo hvo
      · have hox : o = x := by
          rcases List.mem_cons.mp ho with h' | h'
          · exact h'
          · exact absurd h' hor
        subst hox
        rw [hfo] at hx
        exact ObjFetchRes.noConfusion hx
    · simp only [Replication.fetchObjects, hx]
      by_cases hor : o ∈ rest
      · exact ih hrest fs o hor hfo hvo
      · have hox : o = x := by
          rcases List.mem_cons.mp ho with h' | h'
          · exact h'
          · exact absurd h' hor
        subst hox
        rw [hfo] at hx
        exact ObjFetchRes.noConfusion hx

theorem fetch_repo_from_peer_list_failure (env : Replication.ReplEnv) (z : Codec)
    (fs : FS) (rh : Bytes) (peer : PeerNode) (hl : env.objList peer rh = none) :
    Replication.fetch_repo_from_peer env z fs rh peer =
      ⟨GitStorage.init_repo fs rh, false⟩ := by
  unfold Replication.fetch_repo_from_peer
  rw [hl]

theorem fetch_repo_from_peer_ok (env : Replication.ReplEnv) (z : Codec)
    (fs : FS) (rh : Bytes) (peer : PeerNode) (objs : List Bytes) (d : Bytes → Bytes)
    (hl : env.objList peer rh = some objs)
    (h : ∀ oid ∈ objs, FetchStep env peer rh d oid) :
    (Replication.fetch_repo_from_peer env z fs rh peer).ok = true := by
  unfold Replication.fetch_repo_from_peer
  rw [hl]
  exact fetchObjects_ok env z peer rh d objs h _

theorem fetch_repo_from_peer_reads (env : Replication.ReplEnv) (z : Codec)
    (fs : FS) (rh : Bytes) (peer : PeerNode) (objs : List Bytes) (d : Bytes → Bytes)
    (hz : z.Roundtrip) (hl : env.objList peer rh = some objs)
    (h : ∀ oid ∈ objs, FetchStep env peer rh d oid) :
    ∀ o ∈ objs, env.objFetch peer rh o = .ok (d o) → (splitId o).isSome →
      GitStorage.read_object z (Replication.fetch_repo_from_peer env z fs rh peer).fs rh o =
        .ok (d o) := by
  unfold Replication.fetch_repo_from_peer
  rw [hl]
  exact fetchObjects_reads env z peer rh d objs hz h _

/-- C3: with peers `[P1, P2]` where P1's object-list fetch fails and P2's
succeeds, the peers are attempted exactly in registry order `[P1, P2]`
(nothing after the first success), the attempt succeeds, the repository
ends up in the hosted list, every object reads back with P2's payload —
and with an empty peer list the item fails with no state change. -/
theorem peer_failover_in_order (env : Replication.ReplEnv) (z : Codec) (fs : FS)
    (hosted : List Bytes) (rh : Bytes) (p1 p2 : PeerNode) (objs : List Bytes)
    (d : Bytes → Bytes) (hz : z.Roundtrip)
    (hn : env.nodesOf rh = some [p1, p2])
    (h1 : env.objList p1 rh = none)
    (h2 : env.objList p2 rh = some objs)
    (hf : ∀ oid ∈ objs, env.objFetch p2 rh oid = .ok (d oid))
    (hv : ∀ oid ∈ objs, (splitId oid).isSome) :
    (Replication.replicate_repo env z fs hosted rh).ok = true
    ∧ rh ∈ (Replication.replicate_repo env z fs hosted rh).hosted
    ∧ (Replication.replicate_repo env z fs hosted rh).attempted = [p1, p2]
    ∧ (∀ oid ∈ objs,
        GitStorage.read_object z (Replication.replicate_repo env z fs hosted rh).fs rh oid =
          .ok (d oid))
    ∧ (∀ (env' : Replication.ReplEnv) (fs' : FS) (hosted' : List Bytes),
        env'.nodesOf rh = some [] →
        Replication.replicate_repo env' z fs' hosted' rh = ⟨fs', hosted', false, []⟩) := by
  have hstep : ∀ oid ∈ objs, FetchStep env p2 rh d oid :=
    fun oid ho => Or.inl ⟨hf oid ho, hv oid ho⟩
  have hrepl : Replication.replicate_repo env z fs hosted rh =
      ⟨(Replication.fetch_repo_from_peer env z (GitStorage.init_repo fs rh) rh p2).fs,
        pushIfAbsent hosted rh, true, [p1, p2]⟩ := by
    unfold Replication.replicate_repo
    rw [hn]
    simp only [Replication.tryPeers,
      fetch_repo_from_peer_list_failure env z fs rh p1 h1]
    cases hf2 : Replication.fetch_repo_from_peer env z (GitStorage.init_repo fs rh) rh p2 with
    | mk fs2 ok2 =>
      have : ok2 = true := by
        have := fetch_repo_from_peer_ok env z (GitStorage.init_repo fs rh) rh p2 objs d h2 hstep
        rw [hf2] at this
        exact this
      subst this
      rfl
  refine ⟨by rw [hrepl], by rw [hrepl]; exact mem_pushIfAbsent_self hosted rh,
    by rw [hrepl], ?_, ?_⟩
  · intro oid ho
    rw [hrepl]
    exact fetch_repo_from_peer_reads env z (GitStorage.init_repo fs rh) rh p2 objs d hz h2
      hstep oid ho (hf oid ho) (hv oid ho)
  · intro env' fs' hosted' hn'
    unfold Replication.replicate_repo
    rw [hn']

/-- Concrete peers for witnesses. -/
def peerOne : PeerNode := ⟨[49], [97], 1, 0, []⟩

def peerTwo : PeerNode := ⟨[50], [98], 1, 0, []⟩

/-- Witness environment for C3: P1's listing fails, P2 serves one object. -/
def failoverEnv : Replication.ReplEnv :=
  ⟨none, fun _ => none,
    fun _ => some [peerOne, peerTwo],
    fun p _ => if p = peerTwo then some [[97, 98]] else none,
    fun _ _ _ => .ok [1, 2, 3]⟩

/-- Witness for C3. -/
theorem peer_failover_in_order_witness :
    failoverEnv.nodesOf [114] = some [peerOne, peerTwo]
    ∧ failoverEnv.objList peerOne [114] = none
    ∧ failoverEnv.objList peerTwo [114] = some [[97, 98]]
    ∧ ((Replication.replicate_repo failoverEnv idCodec FS.empty [] [114]).ok = true
      ∧ [114] ∈ (Replication.replicate_repo failoverEnv idCodec FS.empty [] [114]).hosted
      ∧ (Replication.replicate_repo failoverEnv idCodec FS.empty [] [114]).attempted =
          [peerOne, peerTwo]
      ∧ (∀ oid ∈ ([[97, 98]] : List Bytes),
          GitStorage.read_object idCodec
              (Replication.replicate_repo failoverEnv idCodec FS.empty [] [114]).fs [114] oid =
            .ok ((fun _ => [1, 2, 3]) oid))
      ∧ (∀ (env' : Replication.ReplEnv) (fs' : FS) (hosted' : List Bytes),
          env'.nodesOf [114] = some [] →
          Replication.replicate_repo env' idCodec fs' hosted' [114] =
            ⟨fs', hosted', false, []⟩)) :=
  ⟨rfl, by decide, by decide,
    peer_failover_in_order failoverEnv idCodec FS.empty [] [114] peerOne peerTwo
      [[97, 98]] (fun _ => [1, 2, 3]) idCodec_roundtrip rfl (by decide) (by decide)
      (fun _ _ => rfl) (by intro oid ho; rw [List.mem_singleton.mp ho]; decide)⟩

/-- C4: during a single-peer fetch, a request failure or bad status for
one object's bytes is skipped — every other listed object is still
fetched, nothing is rolled back, and the peer attempt succeeds — whereas
a failed object listing makes the whole peer attempt fail, after which
the peer loop proceeds to the next peer. -/
theorem object_fetch_failure_skipped (env : Replication.ReplEnv) (z : Codec) (fs : FS)
    (rh : Bytes) (peer : PeerNode) (objs1 objs2 : List Bytes) (oidBad : Bytes)
    (d : Bytes → Bytes) (hz : z.Roundtrip)
    (hl : env.objList peer rh = some (objs1 ++ oidBad :: objs2))
    (hbad : env.objFetch peer rh oidBad = .httpErr ∨ env.objFetch peer rh oidBad = .badStatus)
    (hok : ∀ oid ∈ objs1 ++ objs2, env.objFetch peer rh oid = .ok (d oid))
    (hv : ∀ oid ∈ objs1 ++ objs2, (splitId oid).isSome) :
    (Replication.fetch_repo_from_peer env z fs rh peer).ok = true
    ∧ (∀ oid ∈ objs1 ++ objs2,
        GitStorage.read_object z (Replication.fetch_repo_from_peer env z fs rh peer).fs rh oid =
          .ok (d oid))
    ∧ (∀ (env' : Replication.ReplEnv) (fs' : FS) (hosted' : List Bytes)
        (p q : PeerNode) (rest : List PeerNode),
        env'.objList p rh = none →
        (Replication.fetch_repo_from_peer env' z fs' rh p).ok = false
        ∧ Replication.tryPeers env' z rh (p :: q :: rest) fs' hosted' =
            ⟨(Replication.tryPeers env' z rh (q :: rest) (GitStorage.init_repo fs' rh)
                hosted').fs,
              (Replication.tryPeers env' z rh (q :: rest) (GitStorage.init_repo fs' rh)
                hosted').hosted,
              (Replication.tryPeers env' z rh (q :: rest) (GitStorage.init_repo fs' rh)
                hosted').ok,
              p :: (Replication.tryPeers env' z rh (q :: rest) (GitStorage.init_repo fs' rh)
                hosted').attempted⟩) := by
  have hstep : ∀ oid ∈ objs1 ++ oidBad :: objs2, FetchStep env peer rh d oid := by
    intro oid ho
    rcases List.mem_append.mp ho with h' | h'
    · exact Or.inl ⟨hok oid (List.mem_append_left _ h'), hv oid (List.mem_append_left _ h')⟩
    · rcases List.mem_cons.mp h' with h'' | h''
      · subst h''
        rcases hbad with hb | hb
        · exact Or.inr (Or.inl hb)
        · exact Or.inr (Or.inr hb)
      · exact Or.inl ⟨hok oid (List.mem_append_right _ h''),
          hv oid (List.mem_append_right _ h'')⟩
  refine ⟨fetch_repo_from_peer_ok env z fs rh peer _ d hl hstep, ?_, ?_⟩
  · intro oid ho
    have hoL : oid ∈ objs1 ++ oidBad :: objs2 := by
      rcases List.mem_append.mp ho with h' | h'
      · exact List.mem_append_left _ h'
      · exact List.mem_append_right _ (List.mem_cons_of_mem oidBad h')
    exact fetch_repo_from_peer_reads env z fs rh peer _ d hz hl hstep oid hoL
      (hok oid ho) (hv oid ho)
  · intro env' fs' hosted' p q rest hl'
    have hfail := fetch_repo_from_peer_list_failure env' z fs' rh p hl'
    constructor
    · rw [hfail]
    · simp only [Replication.tryPeers, hfail]

/-- Witness environment for C4: three listed objects, the middle one's
byte fetch fails at the request level. -/
def skipEnv : Replication.ReplEnv :=
  ⟨none, fun _ => none, fun _ => none,
    fun _ _ => some [[97, 98], [99, 100], [101, 102]],
    fun _ _ oid => if oid = [99, 100] then .httpErr else .ok [7, 8]⟩

/-- Witness for C4. -/
theorem object_fetch_failure_skipped_witness :
    skipEnv.objList peerOne [114] = some ([[97, 98]] ++ [99, 100] :: [[101, 102]])
    ∧ skipEnv.objFetch peerOne [114] [99, 100] = .httpErr
    ∧ ((Replication.fetch_repo_from_peer skipEnv idCodec FS.empty [114] peerOne).ok = true
      ∧ (∀ oid ∈ ([[97, 98]] : List Bytes) ++ [[101, 102]],
          GitStorage.read_object idCodec
              (Replication.fetch_repo_from_peer skipEnv idCodec FS.empty [114] peerOne).fs
              [114] oid = .ok ((fun _ => [7, 8]) oid))
      ∧ (∀ (env' : Replication.ReplEnv) (fs' : FS) (hosted' : List Bytes)
          (p q : PeerNode) (rest : List PeerNode),
          env'.objList p [114] = none →
          (Replication.fetch_repo_from_peer env' idCodec fs' [114] p).ok = false
          ∧ Replication.tryPeers env' idCodec [114] (p :: q :: rest) fs' hosted' =
              ⟨(Replication.tryPeers env' idCodec [114] (q :: rest)
                  (GitStorage.init_repo fs' [114]) hosted').fs,
                (Replication.tryPeers env' idCodec [114] (q :: rest)
                  (GitStorage.init_repo fs' [114]) hosted').hosted,
                (Replication.tryPeers env' idCodec [114] (q :: rest)
                  (GitStorage.init_repo fs' [114]) hosted').ok,
                p :: (Replication.tryPeers env' idCodec [114] (q :: rest)
                  (GitStorage.init_repo fs' [114]) hosted').attempted⟩)) :=
  ⟨by decide, by decide,
    object_fetch_failure_skipped skipEnv idCodec FS.empty [114] peerOne
      [[97, 98]] [[101, 102]] [99, 100] (fun _ => [7, 8]) idCodec_roundtrip
      (by decide) (Or.inl (by decide))
      (by intro oid ho; fin_cases ho <;> decide)
      (by intro oid ho; fin_cases ho <;> decide)⟩

/-! ## Fan-out enumeration lemmas -/

theorem child?_eq_some {p d : FPath} {n : Bytes} : child? p d = some n ↔ d = p ++ [n] := by
  constructor
  · intro h
    unfold child? at h
    cases heq : d.drop p.length with
    | nil =>
      simp only [heq] at h
      exact Option.noConfusion h
    | cons x t =>
      cases t with
      | nil =>
        simp only [heq] at h
        by_cases ht : d.take p.length = p
        · rw [if_pos ht] at h
          injection h with h'
          subst h'
          calc d = d.take p.length ++ d.drop p.length := (List.take_append_drop _ _).symm
            _ = p ++ [x] := by rw [ht, heq]
        · rw [if_neg ht] at h
          exact Option.noConfusion h
      | cons y t2 =>
        simp only [heq] at h
        exact Option.noConfusion h
  · rintro rfl
    unfold child?
    simp [List.drop_left, List.take_left]

theorem mem_childNames {fs : FS} {p : FPath} {n : Bytes} :
    n ∈ childNames fs p ↔ (p ++ [n]) ∈ fs.allPaths := by
  unfold childNames
  rw [List.mem_dedup, List.mem_filterMap]
  constructor
  · rintro ⟨d, hd, hc⟩
    exact child?_eq_some.mp hc ▸ hd
  · intro h
    exact ⟨p ++ [n], h, child?_eq_some.mpr rfl⟩

theorem nodup_childNames (fs : FS) (p : FPath) : (childNames fs p).Nodup :=
  List.nodup_dedup _

theorem count_flatMap {α : Type} (l : List α) (f : α → List Bytes) (b : Bytes) :
    ((l.flatMap f).count b) = (l.map fun a => (f a).count b).sum := by
  induction l with
  | nil => rfl
  | cons x rest ih =>
    rw [List.flatMap_cons, List.count_append, List.map_cons, List.sum_cons, ih]

theorem sum_map_eq_one {α : Type} [DecidableEq α] :
    ∀ (l : List α) (f : α → Nat) (a : α), l.Nodup → a ∈ l → f a = 1 →
      (∀ b ∈ l, b ≠ a → f b = 0) → (l.map f).sum = 1 := by
  intro l
  induction l with
  | nil => intro f a _ ha; cases ha
  | cons x rest ih =>
    intro f a hnd ha hfa h0
    rcases List.mem_cons.mp ha with h' | h'
    · subst h'
      have hz : ∀ y ∈ rest.map f, y = 0 := by
        intro y hy
        obtain ⟨b, hb, hfb⟩ := List.mem_map.mp hy
        rw [← hfb]
        exact h0 b (List.mem_cons_of_mem a hb)
          (fun he => (List.nodup_cons.mp hnd).1 (he ▸ hb))
      rw [List.map_cons, List.sum_cons, hfa, List.sum_eq_zero hz]
      omega
    · have hx0 : f x = 0 := h0 x (List.mem_cons_self x rest)
        (fun he => (List.nodup_cons.mp hnd).1 (he ▸ h'))
      rw [List.map_cons, List.sum_cons, hx0,
        ih f a (List.nodup_cons.mp hnd).2 h' hfa
          (fun b hb hne => h0 b (List.mem_cons_of_mem x hb) hne)]

theorem self_mem_prefixesOf {p : FPath} (h : p ≠ []) : p ∈ prefixesOf p := by
  rw [mem_prefixesOf]
  refine ⟨?_, le_refl _, (List.take_length p).symm⟩
  cases p with
  | nil => exact absurd rfl h
  | cons x t => simp

/-- The fan-out invariant of a repository's object area: every
subdirectory of the object directory has a 2-byte name.  It holds for a
fresh store and is preserved by every storage operation. -/
def FanoutOk (fs : FS) (rh : Bytes) : Prop :=
  ∀ sub : Bytes, (GitStorage.objects_path rh ++ [sub]) ∈ fs.dirs → sub.length = 2

theorem objects_ne_refs : strBytes "objects" ≠ strBytes "refs" := by decide

theorem length_objects_child (rh sub : Bytes) :
    (GitStorage.objects_path rh ++ [sub]).length = 3 := rfl

theorem fanoutOk_init_repo (fs : FS) (rh rh' : Bytes) (h : FanoutOk fs rh) :
    FanoutOk (GitStorage.init_repo fs rh') rh := by
  intro sub hmem
  unfold GitStorage.init_repo at hmem
  rw [dirs_writeFile, mem_dirs_createDirAll, mem_dirs_createDirAll,
    mem_dirs_createDirAll, mem_dirs_createDirAll] at hmem
  rcases hmem with ((((hmem | hmem) | hmem) | hmem) | hmem)
  · exact h sub hmem
  · have := length_le_of_mem_prefixesOf hmem
    rw [length_objects_child] at this
    simp [GitStorage.repo_path] at this
  · have := length_le_of_mem_prefixesOf hmem
    rw [length_objects_child] at this
    simp [GitStorage.objects_path] at this
  · obtain ⟨_, hle, heq⟩ := mem_prefixesOf.mp hmem
    rw [length_objects_child] at hle heq
    rw [List.take_of_length_le (by rw [length_heads_path])] at heq
    have : strBytes "objects" = strBytes "refs" := by
      have h2 := congrArg (fun l => l.get? 1) heq
      simpa [GitStorage.objects_path, GitStorage.refs_path] using h2
    exact absurd this objects_ne_refs
  · obtain ⟨_, hle, heq⟩ := mem_prefixesOf.mp hmem
    rw [length_objects_child] at hle heq
    rw [List.take_of_length_le (by rw [length_tags_path])] at heq
    have : strBytes "objects" = strBytes "refs" := by
      have h2 := congrArg (fun l => l.get? 1) heq
      simpa [GitStorage.objects_path, GitStorage.refs_path] using h2
    exact absurd this objects_ne_refs

theorem fanoutOk_store_object (z : Codec) (fs fs' : FS) (rh oid data sub fn : Bytes)
    (hsf : splitId oid = some (sub, fn)) (h : FanoutOk fs rh)
    (hst : GitStorage.store_object z fs rh oid data = .ok fs') : FanoutOk fs' rh := by
  rw [store_object_eq z fs rh oid data sub fn hsf] at hst
  injection hst with hst
  subst hst
  intro sub' hmem
  rw [dirs_writeFile, mem_dirs_createDirAll] at hmem
  rcases hmem with hmem | hmem
  · by_cases hinit : pathExists fs (GitStorage.objects_path rh)
    · rw [if_pos hinit] at hmem
      exact h sub' hmem
    · rw [if_neg hinit] at hmem
      exact fanoutOk_init_repo fs rh rh h sub' hmem
  · obtain ⟨_, hle, heq⟩ := mem_prefixesOf.mp hmem
    rw [length_objects_child] at hle heq
    rw [List.take_of_length_le (by rw [length_objects_child])] at heq
    have hsub : sub' = sub := List.singleton_injective (List.append_cancel_left heq)
    rw [hsub]
    exact splitId_sub_length hsf

theorem count_eq_one_of_nodup_mem {l : List Bytes} {a : Bytes} (hnd : l.Nodup) (ha : a ∈ l) :
    l.count a = 1 := by
  induction l with
  | nil => cases ha
  | cons x t ih =>
    rcases List.mem_cons.mp ha with h | h
    · subst h
      rw [List.count_cons_self, List.count_eq_zero.mpr (List.nodup_cons.mp hnd).1]
    · rw [List.count_cons_of_ne
          (fun he => (List.nodup_cons.mp hnd).1 (by rw [← he]; exact h)) t,
        ih (List.nodup_cons.mp hnd).2 h]

theorem count_map_append_left (sub fn : Bytes) (l : List Bytes) :
    ((l.map fun n => sub ++ n).count (sub ++ fn)) = l.count fn := by
  induction l with
  | nil => rfl
  | cons x t ih =>
    by_cases hx : x = fn
    · subst hx
      rw [List.map_cons, List.count_cons_self, List.count_cons_self, ih]
    · rw [List.map_cons,
        List.count_cons_of_ne (fun he => hx (List.append_cancel_left he).symm) _,
        List.count_cons_of_ne (fun he => hx he.symm) _, ih]

theorem count_list_objects_store (z : Codec) (fs fs' : FS) (rh oid data sub fn : Bytes)
    (hsf : splitId oid = some (sub, fn)) (hfan : FanoutOk fs rh)
    (hst : GitStorage.store_object z fs rh oid data = .ok fs') :
    (GitStorage.list_objects fs' rh).count oid = 1 := by
  have hfan' : FanoutOk fs' rh := fanoutOk_store_object z fs fs' rh oid data sub fn hsf hfan hst
  rw [store_object_eq z fs rh oid data sub fn hsf] at hst
  injection hst with hst
  subst hst
  unfold GitStorage.list_objects
  have hsubdir : (GitStorage.objects_path rh ++ [sub]) ∈
      (writeFile (createDirAll
        (if pathExists fs (GitStorage.objects_path rh) then fs else GitStorage.init_repo fs rh)
        (GitStorage.objects_path rh ++ [sub])) (objFilePath rh sub fn) (z.comp data)).dirs := by
    rw [dirs_writeFile, mem_dirs_createDirAll]
    right
    exact self_mem_prefixesOf (by simp [GitStorage.objects_path])
  have hodex : pathExists
      (writeFile (createDirAll
        (if pathExists fs (GitStorage.objects_path rh) then fs else GitStorage.init_repo fs rh)
        (GitStorage.objects_path rh ++ [sub])) (objFilePath rh sub fn) (z.comp data))
      (GitStorage.objects_path rh) := by
    rw [pathExists_writeFile]
    right
    rw [pathExists_createDirAll]
    left
    rw [mem_prefixesOf]
    exact ⟨by rw [length_objects_path]; omega,
      by rw [length_objects_path, length_objects_child]; omega,
      (List.take_left (GitStorage.objects_path rh) [sub]).symm⟩
  rw [if_pos hodex]
  rw [count_flatMap]
  apply sum_map_eq_one _ _ sub (nodup_childNames _ _)
  · rw [mem_childNames]
    exact List.mem_append_left _ hsubdir
  · rw [if_pos hsubdir]
    have hfnmem : fn ∈ childNames
        (writeFile (createDirAll
          (if pathExists fs (GitStorage.objects_path rh) then fs else GitStorage.init_repo fs rh)
          (GitStorage.objects_path rh ++ [sub])) (objFilePath rh sub fn) (z.comp data))
        (GitStorage.objects_path rh ++ [sub]) := by
      rw [mem_childNames]
      have : (GitStorage.objects_path rh ++ [sub]) ++ [fn] = objFilePath rh sub fn := by
        simp [objFilePath]
      rw [this]
      unfold FS.allPaths writeFile
      simp
    rw [← splitId_append hsf, count_map_append_left]
    exact count_eq_one_of_nodup_mem (nodup_childNames _ _) hfnmem
  · intro sub' hmem hne
    by_cases hdir : (GitStorage.objects_path rh ++ [sub']) ∈
        (writeFile (createDirAll
          (if pathExists fs (GitStorage.objects_path rh) then fs else GitStorage.init_repo fs rh)
          (GitStorage.objects_path rh ++ [sub])) (objFilePath rh sub fn) (z.comp data)).dirs
    · rw [if_pos hdir]
      have hlen2 : sub'.length = 2 := hfan' sub' hdir
      rw [List.count_eq_zero]
      intro hoid
      obtain ⟨n, _, he⟩ := List.mem_map.mp hoid
      apply hne
      have hsub : sub = oid.take 2 := (splitId_eq_some hsf).1
      have : (sub' ++ n).take 2 = sub' := by
        rw [← hlen2]
        exact List.take_left sub' n
      rw [← he] at hsub
      rw [this] at hsub
      exact hsub.symm
    · rw [if_neg hdir]
      rfl

/-- `n` consecutive `store_object` calls for one object id (a test
harness over the storage operation; a store that fails leaves the
filesystem unchanged). -/
def storeMany (z : Codec) (rh oid : Bytes) : List Bytes → FS → FS
  | [], fs => fs
  | data :: rest, fs =>
    match GitStorage.store_object z fs rh oid data with
    | .ok fs' => storeMany z rh oid rest fs'
    | .error _ => storeMany z rh oid rest fs

theorem storeMany_count (z : Codec) (rh oid sub fn : Bytes)
    (hsf : splitId oid = some (sub, fn)) :
    ∀ (ds : List Bytes) (fs : FS), FanoutOk fs rh → ds ≠ [] →
      (GitStorage.list_objects (storeMany z rh oid ds fs) rh).count oid = 1 := by
  intro ds
  induction ds with
  | nil => intro fs _ hne; exact absurd rfl hne
  | cons data rest ih =>
    intro fs hfan _
    obtain ⟨fs1, hst⟩ := store_object_isOk z fs rh oid data (by rw [hsf]; rfl)
    have hfan1 := fanoutOk_store_object z fs fs1 rh oid data sub fn hsf hfan hst
    unfold storeMany
    simp only [hst]
    cases rest with
    | nil =>
      simp only [storeMany]
      exact count_list_objects_store z fs fs1 rh oid data sub fn hsf hfan hst
    | cons d2 r2 =>
      exact ih fs1 hfan1 (by simp)

/-- C6: under the fan-out invariant, any positive number of stores of the
same valid-shape object id leaves `list_objects` containing that id
exactly once (the fan-out prefix and filename re-concatenate to the
original id), and `list_objects` of a repository with no object area is
the empty list, not an error. -/
theorem store_list_objects_exactly_once (z : Codec) (fs : FS) (rh oid sub fn : Bytes)
    (ds : List Bytes) (hsf : splitId oid = some (sub, fn)) (hfan : FanoutOk fs rh)
    (hne : ds ≠ []) :
    (GitStorage.list_objects (storeMany z rh oid ds fs) rh).count oid = 1
    ∧ (∀ (fs₀ : FS) (rh' : Bytes), ¬ pathExists fs₀ (GitStorage.objects_path rh') →
        GitStorage.list_objects fs₀ rh' = []) := by
  refine ⟨storeMany_count z rh oid sub fn hsf ds fs hfan hne, ?_⟩
  intro fs₀ rh' hnex
  unfold GitStorage.list_objects
  rw [if_neg hnex]

/-- Witness for C6: id `"abcd"` stored twice into a fresh store. -/
theorem store_list_objects_exactly_once_witness :
    splitId [97, 98, 99, 100] = some ([97, 98], [99, 100])
    ∧ ((GitStorage.list_objects
          (storeMany idCodec [114] [97, 98, 99, 100] [[5, 6], [7, 8]] FS.empty) [114]).count
            [97, 98, 99, 100] = 1
      ∧ (∀ (fs₀ : FS) (rh' : Bytes), ¬ pathExists fs₀ (GitStorage.objects_path rh') →
          GitStorage.list_objects fs₀ rh' = [])) :=
  ⟨by decide,
    store_list_objects_exactly_once idCodec FS.empty [114] [97, 98, 99, 100]
      [97, 98] [99, 100] [[5, 6], [7, 8]] (by decide)
      (fun s h => absurd h (List.not_mem_nil _)) (by decide)⟩

/-- Environment for the C4 counterexample: the peer lists two objects and
the first one's byte fetch fails while reading the response body. -/
def bodyFailEnv : Replication.ReplEnv :=
  ⟨none, fun _ => none, fun _ => none,
    fun _ _ => some [[97, 98], [99, 100]],
    fun _ _ oid => if oid = [97, 98] then .bodyErr else .ok [7, 8]⟩

/-- C4 counterexample: a failure while reading one object's bytes from
the response body is not skipped — it aborts the whole peer attempt
(`ok = false`), and the remaining listed object is never fetched, so the
claim that any single-object fetch failure is skipped and the peer
attempt still succeeds is false. -/
theorem object_body_failure_not_skipped_cx :
    bodyFailEnv.objFetch peerOne [114] [97, 98] = .bodyErr
    ∧ (Replication.fetch_repo_from_peer bodyFailEnv idCodec FS.empty [114] peerOne).ok = false
    ∧ GitStorage.read_object idCodec
        (Replication.fetch_repo_from_peer bodyFailEnv idCodec FS.empty [114] peerOne).fs
        [114] [99, 100] = .error .notFound := by
  refine ⟨by decide, by decide, by rfl⟩
